import Mathlib

/-!
Verification of the action-registry core of a terminal-dashboard program.

The embedding follows the source files:
- `src/app/actions.rs`: the `Action` enumeration, its static key bindings
  (`Action::keys`), the static universe (`Action::iterator`), the validated
  registry `Actions` with `find` / `actions`, and the conflict-checking
  constructor `impl From<Vec<Action>> for Actions`.
- `src/app/ui.rs`: `check_size` and the branch structure of `draw`.
- `src/io/mod.rs`: the `IoEvent` command enumeration.

The `Key` type lives in `src/inputs/key.rs`, which is not among the provided
sources; it is modelled from the spec ("variant over plain character,
control+character, alt+character"), which matches every use site in
`actions.rs` (`Key::Ctrl('c')`, `Key::Char('q')`, `Key::Alt('w')`).

Rust's `HashMap<Key, Vec<Action>>` used during construction is modelled as an
association list inserted in first-occurrence order; the set of
(key, claiming-actions) entries is identical to the Rust map's contents (the
Rust map's iteration order is unspecified, so every statement about the
reported conflicts is order-insensitive, via membership).  A construction
failure (Rust `panic!` carrying the formatted conflict list) is modelled as
`Except.error` carrying the conflict entries that the panic message formats.
-/

namespace Tui

/-- Modelled from the spec: `Key` from `src/inputs/key.rs` (not among the
provided sources): one decoded physical input, a plain, control- or
alt-modified character. -/
inductive Key where
  | Char : Char → Key
  | Ctrl : Char → Key
  | Alt : Char → Key
deriving DecidableEq, Repr

/-- The `Action` enumeration of `src/app/actions.rs`. -/
inductive Action where
  | Quit
  | Sleep
  | IncrementDelay
  | DecrementDelay
deriving DecidableEq, Repr, Fintype

/-- The static key bindings `Action::keys` (actions.rs lines 26-33). -/
def Action.keys : Action → List Key
  | .Quit => [.Ctrl 'c', .Char 'q']
  | .Sleep => [.Char 's']
  | .IncrementDelay => [.Char '+']
  | .DecrementDelay => [.Char '-']

/-- The static `ACTIONS` array iterated by `Action::iterator`
(actions.rs lines 16-24). -/
def Action.universe : List Action :=
  [.Quit, .Sleep, .IncrementDelay, .DecrementDelay]

/-- The registry `Actions(Vec<Action>)` (actions.rs line 49); the derived
`Default` is the empty vector. -/
abbrev Actions := List Action

/-- `Actions::find` (actions.rs lines 53-57): iterate the static universe,
keep the actions present in the registry, return the first whose key list
contains the key. -/
def Actions.find (self : Actions) (key : Key) : Option Action :=
  (Action.universe.filter (fun a => self.contains a)).find?
    (fun a => a.keys.contains key)

/-- `Actions::actions` (actions.rs lines 60-62): expose the contextual
actions. -/
def Actions.actions (self : Actions) : List Action :=
  self

/-- One step of the construction loop's `match map.get_mut(key)`: append the
action to the entry for `key`, or insert a fresh singleton entry. -/
def insertKey (m : List (Key × List Action)) (k : Key) (a : Action) :
    List (Key × List Action) :=
  match m with
  | [] => [(k, [a])]
  | (k', v) :: rest =>
    if k' = k then (k', v ++ [a]) :: rest else (k', v) :: insertKey rest k a

/-- The grouping loop of `From<Vec<Action>>::from` (actions.rs lines 71-81):
for each action in order, for each of its keys in order, record the action
under that key. -/
def buildMap (actions : List Action) : List (Key × List Action) :=
  actions.foldl (fun m a => a.keys.foldl (fun m' k => insertKey m' k a) m) []

/-- The conflict entries (actions.rs lines 82-93): the map entries whose
action list has more than one element.  The Rust code formats each as
"Conflicting key {key} with actions {actions}". -/
def conflicts (actions : List Action) : List (Key × List Action) :=
  (buildMap actions).filter (fun p => p.2.length > 1)

/-- `impl From<Vec<Action>> for Actions` (actions.rs lines 65-100): panics
(modelled as `Except.error`) with all conflicts when any key is claimed more
than once, otherwise wraps the input vector unchanged. -/
def Actions.fromList (actions : List Action) : Except (List (Key × List Action)) Actions :=
  let errors := conflicts actions
  if errors.isEmpty then .ok actions else .error errors

/-- The actions of `raw` claiming key `k`, in input order — what the
construction loop accumulates under `k` in the map. -/
def claimants (raw : List Action) (k : Key) : List Action :=
  raw.filter (fun a => a.keys.contains k)

/-- First-matching-entry lookup in the association list, with `[]` for an
absent key (construction never stores an empty entry). -/
def lookupA (m : List (Key × List Action)) (k : Key) : List Action :=
  match m with
  | [] => []
  | (k', v) :: rest => if k' = k then v else lookupA rest k

/-- Terminal area as used by `draw` / `check_size` (`tui::layout::Rect`
carries `u16` width and height; only the lower bounds 52 and 28 matter
here, so the dimensions are embedded as `Nat`). -/
structure Rect where
  width : Nat
  height : Nat
deriving DecidableEq, Repr

/-- `check_size` (ui.rs lines 104-106). -/
def check_size (rect : Rect) : Bool :=
  !(rect.width < 52 || rect.height < 28)

/-- The data `draw` reads from `&App`: the loading flag, the `AppState`
accessors (`is_initialized`, `count_sleep`, `count_tick`, `duration`, the
duration in whole seconds), and the action registry.  `App`/`AppState` live
outside the provided sources; the fields mirror exactly the accessor calls
in ui.rs lines 48-56. -/
structure AppView where
  isLoading : Bool
  isInitialized : Bool
  countSleep : Option Nat
  countTick : Option Nat
  duration : Option Nat
  actions : Actions
deriving Repr

/-- Outcome of one `draw` call, at branch granularity: the normal dashboard
layout records every piece of application data it renders (ui.rs lines
23-62); the error layout records only the terminal dimensions interpolated
into its message (ui.rs lines 63-77). -/
inductive DrawResult where
  | normal (loading : Bool) (initialized : Bool)
      (sleep tick : Option Nat) (duration : Option Nat) (help : Actions)
  | error (height width : Nat)
deriving DecidableEq, Repr

/-- Whether the normal dashboard layout was rendered. -/
def DrawResult.isNormal : DrawResult → Bool
  | .normal _ _ _ _ _ _ => true
  | .error _ _ => false

/-- `draw` (ui.rs lines 16-78): render the dashboard when `check_size`
accepts the area, otherwise the error layout showing the received size. -/
def draw (size : Rect) (app : AppView) : DrawResult :=
  if check_size size then
    .normal app.isLoading app.isInitialized app.countSleep app.countTick
      app.duration app.actions
  else
    .error size.height size.width

/-- `IoEvent` (io/mod.rs): the command set executed by the background
worker; `Duration` is embedded as a `Nat` number of time units. -/
inductive IoEvent where
  | Initialize
  | Sleep : Nat → IoEvent
deriving DecidableEq, Repr

/-- Modelled from the spec: the `AppState` fields the worker's completion
path updates (`src/app/state.rs` is not among the provided sources) — an
initialization flag, optional sleep and tick counters, and an optional
last-measured duration (spec sections 3 and 4.4). -/
structure AppState where
  initialized : Bool
  countSleep : Option Nat
  countTick : Option Nat
  duration : Option Nat
deriving DecidableEq, Repr

/-- Modelled from the spec: the AppState mutation applied when one command
completes (`src/io/handler.rs` is not among the provided sources):
`Initialize` sets the initialized flag and makes the counters meaningful;
`Sleep d` increments the sleep counter and records the measured duration
(spec sections 4.3 and 4.4). -/
def applyCompletion (s : AppState) : IoEvent → AppState
  | .Initialize =>
    { s with initialized := true, countSleep := some 0, countTick := some 0 }
  | .Sleep d =>
    { s with countSleep := some (s.countSleep.getD 0 + 1), duration := some d }

/-- Modelled from the spec: the single Worker stream (`src/io/handler.rs` is
not among the provided sources): commands are received from one ordered
channel and processed one at a time in submission order (spec sections 4.3
and 5).  `dur` assigns each command its execution duration and `clock` is
the time at which the worker starts; the result pairs the final `AppState`
with the completion log, each completion tagged with its finish time. -/
def runWorker (dur : IoEvent → Nat) (clock : Nat) (s : AppState) :
    List IoEvent → AppState × List (IoEvent × Nat)
  | [] => (s, [])
  | c :: rest =>
    let finish := clock + dur c
    let s' := applyCompletion s c
    let (sf, log) := runWorker dur finish s' rest
    (sf, (c, finish) :: log)

/-- Disjointness of two actions' static key-sets, as quantified by the
spec's "pairwise-disjoint key-sets". -/
def KeysDisjoint (a b : Action) : Prop :=
  ∀ k, k ∈ a.keys → k ∉ b.keys

/-- The keys of an association-list map, in entry order. -/
def mapKeys (m : List (Key × List Action)) : List Key :=
  m.map Prod.fst

theorem contains_iff {α : Type} [DecidableEq α] {l : List α} {a : α} :
    l.contains a = true ↔ a ∈ l :=
  List.elem_iff

instance (a b : Action) : Decidable (KeysDisjoint a b) :=
  List.decidableBAll (fun k => k ∉ b.keys) a.keys

theorem keys_nodup (a : Action) : a.keys.Nodup := by
  cases a <;> decide

theorem mem_universe (a : Action) : a ∈ Action.universe := by
  cases a <;> decide

theorem keys_disjoint (a b : Action) (k : Key) (ha : k ∈ a.keys)
    (hb : k ∈ b.keys) : a = b := by
  cases a <;> cases b <;> (try rfl) <;>
    simp only [Action.keys, List.mem_cons, List.mem_singleton,
      List.not_mem_nil, or_false] at ha hb <;>
    (rcases ha with rfl | rfl <;> revert hb <;> decide)


theorem lookupA_insertKey (m : List (Key × List Action)) (k k' : Key)
    (a : Action) :
    lookupA (insertKey m k a) k' =
      if k = k' then lookupA m k' ++ [a] else lookupA m k' := by
  induction m with
  | nil =>
    by_cases h : k = k' <;> simp [insertKey, lookupA, h]
  | cons p rest ih =>
    obtain ⟨k₀, v⟩ := p
    simp only [insertKey]
    by_cases h₀ : k₀ = k
    · subst h₀
      by_cases h' : k₀ = k' <;> simp [lookupA, h']
    · simp only [if_neg h₀]
      by_cases h₁ : k₀ = k'
      · subst h₁
        have hk : ¬k = k₀ := fun h => h₀ h.symm
        simp [lookupA, hk]
      · simp [lookupA, h₁, ih]

theorem lookupA_foldl_keys (a : Action) (ks : List Key) (k : Key) :
    ∀ m, lookupA (ks.foldl (fun m' k' => insertKey m' k' a) m) k =
      lookupA m k ++ List.replicate (ks.count k) a := by
  induction ks with
  | nil => intro m; simp
  | cons k₀ rest ih =>
    intro m
    simp only [List.foldl_cons, ih, lookupA_insertKey, List.count_cons]
    by_cases h : k₀ = k <;>
      simp [h, List.replicate_succ, Nat.add_comm]

theorem replicate_count_keys (a : Action) (k : Key) :
    List.replicate (a.keys.count k) a =
      if a.keys.contains k then [a] else [] := by
  by_cases h : k ∈ a.keys
  · rw [List.count_eq_one_of_mem (keys_nodup a) h, if_pos (contains_iff.mpr h)]
    rfl
  · rw [List.count_eq_zero_of_not_mem h, if_neg, List.replicate_zero]
    exact fun hc => h (contains_iff.mp hc)

theorem lookupA_buildMap_aux (raw : List Action) (k : Key) :
    ∀ m, lookupA
        (raw.foldl (fun m' a => a.keys.foldl (fun m'' k' => insertKey m'' k' a) m') m) k =
      lookupA m k ++ claimants raw k := by
  induction raw with
  | nil => intro m; simp [claimants]
  | cons a rest ih =>
    intro m
    simp only [List.foldl_cons, ih, lookupA_foldl_keys, replicate_count_keys,
      claimants, List.filter_cons]
    by_cases h : k ∈ a.keys <;>
      simp [h, List.append_assoc]

theorem lookupA_buildMap (raw : List Action) (k : Key) :
    lookupA (buildMap raw) k = claimants raw k := by
  have := lookupA_buildMap_aux raw k []
  simpa [buildMap, lookupA] using this

theorem mem_of_lookupA (m : List (Key × List Action)) (k : Key)
    (h : lookupA m k ≠ []) : (k, lookupA m k) ∈ m := by
  induction m with
  | nil => simp [lookupA] at h
  | cons p rest ih =>
    obtain ⟨k₀, v⟩ := p
    by_cases h₀ : k₀ = k
    · subst h₀
      simp [lookupA]
    · simp only [lookupA, if_neg h₀] at h ⊢
      exact List.mem_cons_of_mem _ (ih h)

theorem mapKeys_insertKey (m : List (Key × List Action)) (k : Key)
    (a : Action) :
    mapKeys (insertKey m k a) =
      if k ∈ mapKeys m then mapKeys m else mapKeys m ++ [k] := by
  induction m with
  | nil => simp [insertKey, mapKeys]
  | cons p rest ih =>
    obtain ⟨k₀, v⟩ := p
    simp only [insertKey]
    by_cases h₀ : k₀ = k
    · subst h₀
      simp [mapKeys]
    · have hk : ¬k = k₀ := fun h => h₀ h.symm
      simp only [if_neg h₀, mapKeys, List.map_cons] at ih ⊢
      rw [ih]
      by_cases h₁ : k ∈ List.map Prod.fst rest <;>
        simp [h₁, List.mem_cons, hk, List.cons_append]

theorem nodup_mapKeys_insertKey (m : List (Key × List Action)) (k : Key)
    (a : Action) (h : (mapKeys m).Nodup) :
    (mapKeys (insertKey m k a)).Nodup := by
  rw [mapKeys_insertKey]
  by_cases hk : k ∈ mapKeys m
  · rwa [if_pos hk]
  · rw [if_neg hk, List.nodup_append]
    exact ⟨h, List.nodup_singleton _,
      fun x hx hxk => hk (by simp at hxk; exact hxk ▸ hx)⟩

theorem nodup_mapKeys_buildMap (raw : List Action) :
    (mapKeys (buildMap raw)).Nodup := by
  have hks : ∀ (a : Action) (ks : List Key) (m : List (Key × List Action)),
      (mapKeys m).Nodup →
      (mapKeys (ks.foldl (fun m' k' => insertKey m' k' a) m)).Nodup := by
    intro a ks
    induction ks with
    | nil => intro m hm; simpa using hm
    | cons k₀ rest ih =>
      intro m hm
      exact ih _ (nodup_mapKeys_insertKey m k₀ a hm)
  have haux : ∀ (l : List Action) (m : List (Key × List Action)),
      (mapKeys m).Nodup →
      (mapKeys (l.foldl
        (fun m' a => a.keys.foldl (fun m'' k' => insertKey m'' k' a) m') m)).Nodup := by
    intro l
    induction l with
    | nil => intro m hm; simpa using hm
    | cons a rest ih =>
      intro m hm
      exact ih _ (hks a a.keys m hm)
  simpa [buildMap] using haux raw [] (by simp [mapKeys])

theorem lookupA_of_mem (m : List (Key × List Action)) (k : Key)
    (v : List Action) (h : (mapKeys m).Nodup) (hm : (k, v) ∈ m) :
    lookupA m k = v := by
  induction m with
  | nil => simp at hm
  | cons p rest ih =>
    obtain ⟨k₀, v₀⟩ := p
    rcases List.mem_cons.mp hm with heq | htail
    · rw [Prod.mk.injEq] at heq
      obtain ⟨rfl, rfl⟩ := heq
      simp [lookupA]
    · have h' : (List.map Prod.fst ((k₀, v₀) :: rest)).Nodup := h
      rw [List.map_cons] at h'
      have hnd := List.nodup_cons.mp h'
      have hk : ¬k₀ = k := by
        intro hh
        subst hh
        exact hnd.1 (List.mem_map.mpr ⟨(k₀, v), htail, rfl⟩)
      simp only [lookupA, if_neg hk]
      exact ih hnd.2 htail

theorem mem_buildMap_val (raw : List Action) (p : Key × List Action)
    (hp : p ∈ buildMap raw) : p.2 = claimants raw p.1 := by
  obtain ⟨k, v⟩ := p
  have := lookupA_of_mem (buildMap raw) k v (nodup_mapKeys_buildMap raw) hp
  rw [lookupA_buildMap] at this
  exact this.symm

theorem mem_conflicts_iff (raw : List Action) (p : Key × List Action) :
    p ∈ conflicts raw ↔ p ∈ buildMap raw ∧ 1 < p.2.length := by
  simp [conflicts, List.mem_filter]

theorem conflicts_complete (raw : List Action) (k : Key)
    (h : 2 ≤ (claimants raw k).length) :
    (k, claimants raw k) ∈ conflicts raw := by
  have hne : claimants raw k ≠ [] := by
    intro hh
    rw [hh] at h
    simp at h
  have hmem : (k, claimants raw k) ∈ buildMap raw := by
    have := mem_of_lookupA (buildMap raw) k (by rw [lookupA_buildMap]; exact hne)
    rwa [lookupA_buildMap] at this
  refine (mem_conflicts_iff raw _).mpr ⟨hmem, ?_⟩
  simpa using h

theorem fromList_error_of_conflicts (raw : List Action)
    (h : conflicts raw ≠ []) :
    Actions.fromList raw = .error (conflicts raw) := by
  unfold Actions.fromList
  rw [if_neg]
  intro hh
  exact h (List.isEmpty_iff.mp hh)

theorem claimants_length_le_one (raw : List Action)
    (h : raw.Pairwise KeysDisjoint) (k : Key) :
    (claimants raw k).length ≤ 1 := by
  have hp : (claimants raw k).Pairwise KeysDisjoint := h.filter _
  cases hc : claimants raw k with
  | nil => simp
  | cons x tl =>
    cases tl with
    | nil => simp
    | cons y rest =>
      exfalso
      have hp2 : (x :: y :: rest).Pairwise KeysDisjoint := hc ▸ hp
      have hR := (List.pairwise_cons.mp hp2).1 y (List.mem_cons_self y rest)
      have hx : x ∈ claimants raw k := by
        rw [hc]
        exact List.mem_cons_self x (y :: rest)
      have hy : y ∈ claimants raw k := by
        rw [hc]
        exact List.mem_cons_of_mem x (List.mem_cons_self y rest)
      have hxk := (List.mem_filter.mp hx).2
      have hyk := (List.mem_filter.mp hy).2
      exact hR k (contains_iff.mp hxk) (contains_iff.mp hyk)

theorem conflicts_nil_of_disjoint (raw : List Action)
    (h : raw.Pairwise KeysDisjoint) : conflicts raw = [] := by
  rw [conflicts]
  apply List.filter_eq_nil_iff.mpr
  intro p hp
  have hv := mem_buildMap_val raw p hp
  have hb := claimants_length_le_one raw h p.1
  simp only [gt_iff_lt, decide_eq_true_eq, not_lt]
  rw [hv]
  exact hb

/-- C1: for every registry built from a sequence in which two Actions (at two
positions) share at least one key, construction fails, and the reported
conflicts contain, for every key claimed at least twice, that key paired with
all the actions claiming it (in input order), and nothing else. -/
theorem C1_conflicting_construction_fails (raw u v w : List Action)
    (a b : Action) (k : Key) (hraw : raw = u ++ a :: v ++ b :: w)
    (ha : k ∈ a.keys) (hb : k ∈ b.keys) :
    Actions.fromList raw = .error (conflicts raw) ∧
    (∀ k' : Key, 2 ≤ (claimants raw k').length →
      (k', claimants raw k') ∈ conflicts raw) ∧
    (∀ p ∈ conflicts raw, p.2 = claimants raw p.1 ∧ 2 ≤ p.2.length) := by
  have hk2 : 2 ≤ (claimants raw k).length := by
    subst hraw
    simp [claimants, List.filter_append, List.filter_cons, ha, hb,
      List.length_append]
    omega
  have hne : conflicts raw ≠ [] := by
    intro hnil
    have hh := conflicts_complete raw k hk2
    rw [hnil] at hh
    simp at hh
  refine ⟨fromList_error_of_conflicts raw hne,
    fun k' h' => conflicts_complete raw k' h', fun p hp => ?_⟩
  have hmem := (mem_conflicts_iff raw p).mp hp
  exact ⟨mem_buildMap_val raw p hmem.1, by omega⟩

/-- Witness for C1: the sequence [Quit, Quit] shares the key Ctrl-c across
two positions, so construction fails with the full conflict report. -/
theorem C1_witness :
    Actions.fromList [Action.Quit, Action.Quit] =
      .error (conflicts [Action.Quit, Action.Quit]) ∧
    (∀ k' : Key, 2 ≤ (claimants [Action.Quit, Action.Quit] k').length →
      (k', claimants [Action.Quit, Action.Quit] k') ∈
        conflicts [Action.Quit, Action.Quit]) ∧
    (∀ p ∈ conflicts [Action.Quit, Action.Quit],
      p.2 = claimants [Action.Quit, Action.Quit] p.1 ∧ 2 ≤ p.2.length) :=
  C1_conflicting_construction_fails [Action.Quit, Action.Quit] [] [] []
    Action.Quit Action.Quit (Key.Ctrl 'c') rfl (by decide) (by decide)

/-- C2: on a successfully built registry, `find` returns exactly the unique
action that is a member of the registry and claims the key, and returns none
exactly when no member of the registry claims it; an action of the static
universe absent from the registry never matches. -/
theorem C2_find_unique_membership (raw r : Actions) (k : Key)
    (_h : Actions.fromList raw = .ok r) :
    (∀ a : Action, r.find k = some a ↔ a ∈ r ∧ k ∈ a.keys) ∧
    (r.find k = none ↔ ∀ a ∈ r, k ∉ a.keys) := by
  constructor
  · intro a
    constructor
    · intro hf
      unfold Actions.find at hf
      have hp := List.find?_some hf
      have hm := List.mem_filter.mp (List.mem_of_find?_eq_some hf)
      exact ⟨contains_iff.mp hm.2, contains_iff.mp hp⟩
    · rintro ⟨har, hak⟩
      unfold Actions.find
      cases hfind : (Action.universe.filter (fun x => r.contains x)).find?
          (fun x => x.keys.contains k) with
      | none =>
        exfalso
        have hmem : a ∈ Action.universe.filter (fun x => r.contains x) :=
          List.mem_filter.mpr ⟨mem_universe a, contains_iff.mpr har⟩
        exact (List.find?_eq_none.mp hfind a hmem) (contains_iff.mpr hak)
      | some b =>
        have hpb := List.find?_some hfind
        have heq : b = a := keys_disjoint b a k (contains_iff.mp hpb) hak
        rw [heq]
  · constructor
    · intro hn a har hak
      unfold Actions.find at hn
      have hmem : a ∈ Action.universe.filter (fun x => r.contains x) :=
        List.mem_filter.mpr ⟨mem_universe a, contains_iff.mpr har⟩
      exact (List.find?_eq_none.mp hn a hmem) (contains_iff.mpr hak)
    · intro hall
      unfold Actions.find
      apply List.find?_eq_none.mpr
      intro x hx hpx
      have hm := List.mem_filter.mp hx
      exact hall x (contains_iff.mp hm.2) (contains_iff.mp hpx)

/-- Witness for C2 on the registry built from [Quit, Sleep] at key Ctrl-c. -/
theorem C2_witness :
    (∀ a : Action,
      Actions.find [Action.Quit, Action.Sleep] (Key.Ctrl 'c') = some a ↔
        a ∈ ([Action.Quit, Action.Sleep] : Actions) ∧ Key.Ctrl 'c' ∈ a.keys) ∧
    (Actions.find [Action.Quit, Action.Sleep] (Key.Ctrl 'c') = none ↔
      ∀ a ∈ ([Action.Quit, Action.Sleep] : Actions), Key.Ctrl 'c' ∉ a.keys) :=
  C2_find_unique_membership [Action.Quit, Action.Sleep]
    [Action.Quit, Action.Sleep] (Key.Ctrl 'c') rfl

/-- C3: a sequence of actions with pairwise-disjoint key-sets builds
successfully, and the registry lists exactly the input actions in input
order. -/
theorem C3_disjoint_construction_succeeds (raw : List Action)
    (h : raw.Pairwise KeysDisjoint) :
    Actions.fromList raw = .ok raw ∧ Actions.actions raw = raw := by
  refine ⟨?_, rfl⟩
  unfold Actions.fromList
  rw [conflicts_nil_of_disjoint raw h]
  rfl

/-- Witness for C3 on the pairwise-disjoint sequence [Quit, Sleep]. -/
theorem C3_witness :
    Actions.fromList [Action.Quit, Action.Sleep] =
      .ok [Action.Quit, Action.Sleep] ∧
    Actions.actions [Action.Quit, Action.Sleep] =
      [Action.Quit, Action.Sleep] :=
  C3_disjoint_construction_succeeds [Action.Quit, Action.Sleep] (by decide)

/-- C4: the concrete sequence of the repository's conflict test — whose
repeated entries are the same action, so no two distinct actions share a
key — fails construction, reporting every duplicated key with both claiming
occurrences. -/
theorem C4_duplicate_sequence_fails :
    List.Pairwise (fun a b : Action => a = b ∨ KeysDisjoint a b)
      [Action.Quit, Action.DecrementDelay, Action.Sleep,
        Action.IncrementDelay, Action.IncrementDelay, Action.Quit,
        Action.DecrementDelay] ∧
    Actions.fromList
      [Action.Quit, Action.DecrementDelay, Action.Sleep,
        Action.IncrementDelay, Action.IncrementDelay, Action.Quit,
        Action.DecrementDelay] =
      .error
        [(Key.Ctrl 'c', [Action.Quit, Action.Quit]),
          (Key.Char 'q', [Action.Quit, Action.Quit]),
          (Key.Char '-', [Action.DecrementDelay, Action.DecrementDelay]),
          (Key.Char '+', [Action.IncrementDelay, Action.IncrementDelay])] :=
  ⟨by decide, rfl⟩

/-- C5: on the registry built from [Quit, Sleep] with the stated key-sets,
`find` maps Ctrl-c to Quit and the unclaimed key w to none. -/
theorem C5_concrete_find :
    Action.keys Action.Quit = [Key.Ctrl 'c', Key.Char 'q'] ∧
    Action.keys Action.Sleep = [Key.Char 's'] ∧
    Actions.fromList [Action.Quit, Action.Sleep] =
      .ok [Action.Quit, Action.Sleep] ∧
    Actions.find [Action.Quit, Action.Sleep] (Key.Ctrl 'c') =
      some Action.Quit ∧
    Actions.find [Action.Quit, Action.Sleep] (Key.Char 'w') = none :=
  ⟨rfl, rfl, rfl, rfl, rfl⟩

/-- C6: the static action universe is exactly the closed set
[Quit, Sleep, IncrementDelay, DecrementDelay] (every action is in it), and
each action's key sequence is the stated compile-time constant, a function of
the action alone. -/
theorem C6_static_universe_and_keys :
    Action.universe =
      [Action.Quit, Action.Sleep, Action.IncrementDelay,
        Action.DecrementDelay] ∧
    (∀ a : Action, a ∈ Action.universe) ∧
    Action.keys Action.Quit = [Key.Ctrl 'c', Key.Char 'q'] ∧
    Action.keys Action.Sleep = [Key.Char 's'] ∧
    Action.keys Action.IncrementDelay = [Key.Char '+'] ∧
    Action.keys Action.DecrementDelay = [Key.Char '-'] :=
  ⟨rfl, mem_universe, rfl, rfl, rfl, rfl⟩

/-- C7: every key is claimed by at most one action of the static universe,
and consequently `find` depends only on which actions are present in the
registry, not on their order. -/
theorem C7_unique_claim_order_independent :
    (∀ (k : Key) (a b : Action), k ∈ a.keys → k ∈ b.keys → a = b) ∧
    (∀ (r₁ r₂ : Actions) (k : Key), (∀ a : Action, a ∈ r₁ ↔ a ∈ r₂) →
      Actions.find r₁ k = Actions.find r₂ k) := by
  constructor
  · intro k a b ha hb
    exact keys_disjoint a b k ha hb
  · intro r₁ r₂ k h
    unfold Actions.find
    have hfilter : Action.universe.filter (fun a => r₁.contains a) =
        Action.universe.filter (fun a => r₂.contains a) := by
      apply List.filter_congr
      intro a _
      by_cases hm : a ∈ r₁
      · rw [contains_iff.mpr hm, contains_iff.mpr ((h a).mp hm)]
      · have hm₂ : a ∉ r₂ := fun hh => hm ((h a).mpr hh)
        rw [Bool.eq_false_iff.mpr fun hc => hm (contains_iff.mp hc),
          Bool.eq_false_iff.mpr fun hc => hm₂ (contains_iff.mp hc)]
    rw [hfilter]

/-- Witness for C7: uniqueness applied at Ctrl-c, and order-independence of
`find` on the two orderings of the registry of Quit and Sleep. -/
theorem C7_witness :
    Action.Quit = Action.Quit ∧
    Actions.find [Action.Quit, Action.Sleep] (Key.Char 's') =
      Actions.find [Action.Sleep, Action.Quit] (Key.Char 's') :=
  ⟨C7_unique_claim_order_independent.1 (Key.Ctrl 'c') Action.Quit Action.Quit
      (by decide) (by decide),
    C7_unique_claim_order_independent.2 [Action.Quit, Action.Sleep]
      [Action.Sleep, Action.Quit] (Key.Char 's') (by decide)⟩

/-- C8: with a single worker stream consuming the submission channel in
order, the completion log equals the submission sequence and the final
state is the in-order fold of the completions — for every assignment of
execution durations to commands. -/
theorem C8_worker_completes_in_submission_order (dur : IoEvent → Nat)
    (clock : Nat) (s : AppState) (cmds : List IoEvent) :
    (runWorker dur clock s cmds).2.map Prod.fst = cmds ∧
    (runWorker dur clock s cmds).1 = cmds.foldl applyCompletion s := by
  induction cmds generalizing clock s with
  | nil => simp [runWorker]
  | cons c rest ih =>
    have hr := ih (clock + dur c) (applyCompletion s c)
    simp [runWorker, hr.1, hr.2]

/-- The derived `Default` of the registry (actions.rs line 48): the empty
vector. -/
def Actions.default : Actions := []

/-- C9: the default-constructed registry claims no keys: `find` returns none
for every key, and the action list is empty. -/
theorem C9_default_registry_empty :
    (∀ k : Key, Actions.find Actions.default k = none) ∧
    Actions.actions Actions.default = [] :=
  ⟨fun _ => rfl, rfl⟩

/-- C10: `draw` renders the normal dashboard exactly when the terminal area
satisfies width ≥ 52 and height ≥ 28 (equivalently, `check_size` accepts),
and on every smaller area it renders the error layout, which reads no
application state at all. -/
theorem C10_draw_size_gate (size : Rect) (app : AppView) :
    ((draw size app).isNormal = true ↔
      52 ≤ size.width ∧ 28 ≤ size.height) ∧
    (check_size size = true ↔ 52 ≤ size.width ∧ 28 ≤ size.height) ∧
    (check_size size = false → ∀ app' : AppView,
      draw size app = draw size app') := by
  have hc : check_size size = true ↔ 52 ≤ size.width ∧ 28 ≤ size.height := by
    simp only [check_size, Bool.not_eq_true', Bool.or_eq_false_iff,
      decide_eq_false_iff_not, Nat.not_lt]
  refine ⟨?_, hc, ?_⟩
  · rw [← hc]
    cases hcs : check_size size <;> simp [draw, hcs, DrawResult.isNormal]
  · intro hfalse app'
    simp [draw, hfalse]

/-- Witness for C10 on a 10×10 terminal and a concrete application view. -/
theorem C10_witness :
    ((draw (Rect.mk 10 10)
        (AppView.mk false false none none none [])).isNormal = true ↔
      52 ≤ (Rect.mk 10 10).width ∧ 28 ≤ (Rect.mk 10 10).height) ∧
    (check_size (Rect.mk 10 10) = true ↔
      52 ≤ (Rect.mk 10 10).width ∧ 28 ≤ (Rect.mk 10 10).height) ∧
    (check_size (Rect.mk 10 10) = false → ∀ app' : AppView,
      draw (Rect.mk 10 10) (AppView.mk false false none none none []) =
        draw (Rect.mk 10 10) app') :=
  C10_draw_size_gate (Rect.mk 10 10) (AppView.mk false false none none none [])

end Tui
